import Mathlib

/-!
Verification of the samply PE/PDB symbolication core (`samply-symbols/src/windows.rs`)
against its natural-language specification.

The Rust source is shallowly embedded: strings become `List Char`, byte buffers
become `List Nat`, machine integers become `Nat`, fallible operations become
`Option`/`Except`, and the unbounded chain-resolution loop becomes a fuel-indexed
function where `none` for every fuel models divergence.
-/

namespace Samply

/-- The `MappedPath` closed variant set ("permalink" paths). -/
inductive MappedPath where
  | Git (repo path rev : List Char)
  | Mercurial (repo path rev : List Char)
  | S3 (bucket digestAndPath : List Char)
  | Url (url : List Char)
deriving DecidableEq, Repr

/-- Model of nom's `tag(pat)`: consume the literal `pat` from the front of the
input, or fail. -/
def tagP (pat l : List Char) : Option (List Char) :=
  if pat.isPrefixOf l then some (l.drop pat.length) else none

/-- Split the input at the first occurrence of `pat`: returns the part before
the occurrence and the rest (which starts with `pat`); `none` when `pat` does
not occur. Shared engine for nom's `take_until1`. -/
def splitUntil (pat : List Char) : List Char → Option (List Char × List Char)
  | [] => if pat.isPrefixOf [] then some ([], []) else none
  | c :: cs =>
    if pat.isPrefixOf (c :: cs) then some ([], c :: cs)
    else
      match splitUntil pat cs with
      | some (a, b) => some (c :: a, b)
      | none => none

/-- Model of nom's `take_until1(pat)`: like `splitUntil` but the consumed part
must be non-empty. It does not consume `pat` itself. -/
def takeUntil1 (pat l : List Char) : Option (List Char × List Char) :=
  match splitUntil pat l with
  | some (a, b) => if a = [] then none else some (a, b)
  | none => none

/-- Model of `parse_gitiles_url`, the nom parser chain
`tag("https://")`, `terminated(take_until1(".git/+/"), tag(".git/+/"))`,
`terminated(take_until1("/"), tag("/"))`,
`terminated(take_until1("?format=TEXT"), terminated(tag("?format=TEXT"), eof))`.
The nom error detail is collapsed to `none`. -/
def parse_gitiles_url (input : List Char) : Option MappedPath := do
  let i1 ← tagP "https://".toList input
  let (repo, i2) ← takeUntil1 ".git/+/".toList i1
  let i3 ← tagP ".git/+/".toList i2
  let (rev, i4) ← takeUntil1 "/".toList i3
  let i5 ← tagP "/".toList i4
  let (path, i6) ← takeUntil1 "?format=TEXT".toList i5
  let i7 ← tagP "?format=TEXT".toList i6
  if i7 = [] then some (MappedPath.Git repo path rev) else none

/-- A pattern has no non-trivial border: no proper non-empty prefix of it is
also a suffix of it. All three literal separators of the gitiles grammar
satisfy this, which rules out occurrences of a separator straddling a
component boundary. -/
def NoBorder (pat : List Char) : Prop :=
  ∀ k < pat.length, 0 < k → ¬ (pat.take k <:+ pat)

/-- The exact gitiles URL grammar: `https://` + repo + `.git/+/` + rev + `/` +
path + `?format=TEXT` + end of input, components non-empty, with each component
free of the separator that terminates it (so each separator is taken at its
first occurrence). -/
def gitilesForm (input repo rev path : List Char) : Prop :=
  input = "https://".toList ++ repo ++ ".git/+/".toList ++ rev
      ++ "/".toList ++ path ++ "?format=TEXT".toList
    ∧ repo ≠ [] ∧ rev ≠ [] ∧ path ≠ []
    ∧ ¬ (".git/+/".toList <:+: repo)
    ∧ ¬ ("/".toList <:+: rev)
    ∧ ¬ ("?format=TEXT".toList <:+: path)

theorem tagP_eq_some {pat l r : List Char} : tagP pat l = some r ↔ l = pat ++ r := by
  unfold tagP
  constructor
  · intro h
    split at h
    · next hp =>
      have hpre : pat <+: l := List.isPrefixOf_iff_prefix.mp hp
      obtain ⟨t, rfl⟩ := hpre
      simp at h
      simp [h]
    · exact absurd h (by simp)
  · rintro rfl
    have hp : pat.isPrefixOf (pat ++ r) := List.isPrefixOf_iff_prefix.mpr ⟨r, rfl⟩
    simp [hp]

theorem splitUntil_eq_some {pat : List Char} :
    ∀ {l a b : List Char}, splitUntil pat l = some (a, b) →
      l = a ++ b ∧ pat <+: b ∧ ∀ s t, a = s ++ t → t ≠ [] → ¬ pat <+: (t ++ b) := by
  intro l
  induction l with
  | nil =>
    intro a b h
    unfold splitUntil at h
    split at h
    · next hp =>
      simp at h
      obtain ⟨rfl, rfl⟩ := h
      refine ⟨rfl, List.isPrefixOf_iff_prefix.mp hp, ?_⟩
      intro s t hst ht
      exact absurd (List.append_eq_nil.mp hst.symm).2 ht
    · exact absurd h (by simp)
  | cons c cs ih =>
    intro a b h
    unfold splitUntil at h
    split at h
    · next hp =>
      simp at h
      obtain ⟨rfl, rfl⟩ := h
      refine ⟨rfl, List.isPrefixOf_iff_prefix.mp hp, ?_⟩
      intro s t hst ht
      exact absurd (List.append_eq_nil.mp hst.symm).2 ht
    · next hp =>
      match hrec : splitUntil pat cs with
      | some (a', b') =>
        rw [hrec] at h
        simp at h
        obtain ⟨rfl, rfl⟩ := h
        obtain ⟨hl, hpre, hmin⟩ := ih hrec
        refine ⟨by simp [hl], hpre, ?_⟩
        intro s t hst ht
        match s, hst with
        | [], hst =>
          -- t = c :: a', occurrence at position 0: contradicts the `isPrefixOf` test
          simp at hst
          subst hst
          intro hcontra
          exact hp ( List.isPrefixOf_iff_prefix.mpr (by simp [hl]; exact hcontra))
        | s₀ :: s', hst =>
          simp at hst
          exact hmin s' t hst.2 ht
      | none => rw [hrec] at h; exact absurd h (by simp)

theorem splitUntil_first_occurrence {pat l a b : List Char} (hne : pat ≠ [])
    (h : splitUntil pat l = some (a, b)) : ¬ pat <:+: a := by
  rintro ⟨s, u, rfl⟩
  obtain ⟨-, -, hmin⟩ := splitUntil_eq_some h
  exact hmin s (pat ++ u) (by simp) (by simp [hne]) ⟨u ++ b, by simp⟩

theorem splitUntil_append {pat rest : List Char} (hne : pat ≠ []) (hnb : NoBorder pat) :
    ∀ {a : List Char}, ¬ pat <:+: a →
      splitUntil pat (a ++ pat ++ rest) = some (a, pat ++ rest) := by
  intro a
  induction a with
  | nil =>
    intro _
    have hp : pat.isPrefixOf (pat ++ rest) := List.isPrefixOf_iff_prefix.mpr ⟨rest, rfl⟩
    simp [splitUntil]
    cases pat with
    | nil => exact absurd rfl hne
    | cons p ps => simp [splitUntil]
  | cons c a' ih =>
    intro hninf
    have hstep : ¬ pat.isPrefixOf (c :: a' ++ pat ++ rest) := by
      intro hp
      have hpre : pat <+: (c :: a') ++ (pat ++ rest) :=
        List.isPrefixOf_iff_prefix.mp (by simpa using hp)
      rcases le_or_lt pat.length (c :: a').length with hle | hlt
      · -- the occurrence would lie entirely inside `c :: a'`
        have hpa : pat <+: c :: a' := by
          have h1 : pat = ((c :: a') ++ (pat ++ rest)).take pat.length :=
            (List.prefix_iff_eq_take.mp hpre)
          rw [List.take_append_eq_append_take, Nat.sub_eq_zero_of_le hle] at h1
          simp at h1
          exact h1 ▸ List.take_prefix _ _
        obtain ⟨t, ht⟩ := hpa
        exact hninf ⟨[], t, by simpa using ht⟩
      · -- the occurrence would straddle the boundary: forces a border of `pat`
        have h1 : pat = ((c :: a') ++ (pat ++ rest)).take pat.length :=
          (List.prefix_iff_eq_take.mp hpre)
        rw [List.take_append_eq_append_take,
          List.take_of_length_le (le_of_lt hlt)] at h1
        set k := pat.length - (c :: a').length with hk
        have hkpos : 0 < k := by omega
        have hklt : k < pat.length := by
          have : (c :: a').length > 0 := by simp
          omega
        have htk : (pat ++ rest).take k = pat.take k :=
          List.take_append_of_le_length (Nat.le_of_lt hklt)
        rw [htk] at h1
        -- `pat = (c :: a') ++ pat.take k`, so `pat.take k` is a suffix of `pat`
        exact hnb k hklt hkpos ⟨c :: a', h1.symm⟩
    have hninf' : ¬ pat <:+: a' := by
      rintro ⟨s, t, hst⟩
      exact hninf ⟨c :: s, t, by simp [hst]⟩
    calc splitUntil pat (c :: a' ++ pat ++ rest)
        = splitUntil pat (c :: (a' ++ pat ++ rest)) := by simp
      _ = some (c :: a', pat ++ rest) := by
          unfold splitUntil
          rw [if_neg (by exact hstep)]
          rw [ih hninf']

theorem takeUntil1_append {pat a rest : List Char} (hne : pat ≠ []) (hnb : NoBorder pat)
    (ha : a ≠ []) (hninf : ¬ pat <:+: a) :
    takeUntil1 pat (a ++ pat ++ rest) = some (a, pat ++ rest) := by
  unfold takeUntil1
  rw [splitUntil_append hne hnb hninf]
  simp [ha]

theorem takeUntil1_eq_some {pat l a b : List Char} (h : takeUntil1 pat l = some (a, b)) :
    l = a ++ b ∧ pat <+: b ∧ a ≠ [] ∧ (pat ≠ [] → ¬ pat <:+: a) := by
  unfold takeUntil1 at h
  match hs : splitUntil pat l with
  | some (a', b') =>
    rw [hs] at h
    have h' : (if a' = [] then none else some (a', b')) = some (a, b) := h
    by_cases ha' : a' = []
    · rw [if_pos ha'] at h'
      exact absurd h' (by simp)
    · rw [if_neg ha'] at h'
      simp at h'
      obtain ⟨rfl, rfl⟩ := h'
      obtain ⟨hl, hpre, -⟩ := splitUntil_eq_some hs
      exact ⟨hl, hpre, ha', fun hn => splitUntil_first_occurrence hn hs⟩
  | none => rw [hs] at h; exact absurd h (by simp)

theorem parse_gitiles_url_form_append {input repo rev path : List Char}
    (h : gitilesForm input repo rev path) (extra : List Char) :
    parse_gitiles_url (input ++ extra)
      = if extra = [] then some (MappedPath.Git repo path rev) else none := by
  obtain ⟨hinput, hrepo, hrev, hpath, hrinf, hvinf, hpinf⟩ := h
  subst hinput
  have nb1 : NoBorder ".git/+/".toList := by unfold NoBorder; decide
  have nb2 : NoBorder "/".toList := by unfold NoBorder; decide
  have nb3 : NoBorder "?format=TEXT".toList := by unfold NoBorder; decide
  have s7 : tagP "?format=TEXT".toList ("?format=TEXT".toList ++ extra) = some extra :=
    tagP_eq_some.mpr rfl
  have s6 : takeUntil1 "?format=TEXT".toList (path ++ "?format=TEXT".toList ++ extra)
      = some (path, "?format=TEXT".toList ++ extra) :=
    takeUntil1_append (by decide) nb3 hpath hpinf
  have s5 : tagP "/".toList ("/".toList ++ (path ++ "?format=TEXT".toList ++ extra))
      = some (path ++ "?format=TEXT".toList ++ extra) := tagP_eq_some.mpr rfl
  have s4 : takeUntil1 "/".toList (rev ++ "/".toList ++ (path ++ "?format=TEXT".toList ++ extra))
      = some (rev, "/".toList ++ (path ++ "?format=TEXT".toList ++ extra)) :=
    takeUntil1_append (by decide) nb2 hrev hvinf
  have s3 : tagP ".git/+/".toList
        (".git/+/".toList ++ (rev ++ "/".toList ++ (path ++ "?format=TEXT".toList ++ extra)))
      = some (rev ++ "/".toList ++ (path ++ "?format=TEXT".toList ++ extra)) :=
    tagP_eq_some.mpr rfl
  have s2 : takeUntil1 ".git/+/".toList
        (repo ++ ".git/+/".toList ++ (rev ++ "/".toList ++ (path ++ "?format=TEXT".toList ++ extra)))
      = some (repo, ".git/+/".toList ++ (rev ++ "/".toList ++ (path ++ "?format=TEXT".toList ++ extra))) :=
    takeUntil1_append (by decide) nb1 hrepo hrinf
  have s1 : tagP "https://".toList
        ("https://".toList
          ++ (repo ++ ".git/+/".toList ++ (rev ++ "/".toList ++ (path ++ "?format=TEXT".toList ++ extra))))
      = some (repo ++ ".git/+/".toList ++ (rev ++ "/".toList ++ (path ++ "?format=TEXT".toList ++ extra))) :=
    tagP_eq_some.mpr rfl
  have harr : ("https://".toList ++ repo ++ ".git/+/".toList ++ rev
        ++ "/".toList ++ path ++ "?format=TEXT".toList) ++ extra
      = "https://".toList
          ++ (repo ++ ".git/+/".toList ++ (rev ++ "/".toList ++ (path ++ "?format=TEXT".toList ++ extra))) := by
    simp [List.append_assoc]
  rw [harr]
  unfold parse_gitiles_url
  rw [s1]
  simp only [Option.bind_eq_bind, Option.some_bind]
  rw [s2]
  simp only [Option.bind_eq_bind, Option.some_bind]
  rw [s3]
  simp only [Option.bind_eq_bind, Option.some_bind]
  rw [s4]
  simp only [Option.bind_eq_bind, Option.some_bind]
  rw [s5]
  simp only [Option.bind_eq_bind, Option.some_bind]
  rw [s6]
  simp only [Option.bind_eq_bind, Option.some_bind]
  rw [s7]
  simp only [Option.bind_eq_bind, Option.some_bind]

theorem parse_gitiles_url_eq_some {input : List Char} {mp : MappedPath}
    (h : parse_gitiles_url input = some mp) :
    ∃ repo rev path, gitilesForm input repo rev path ∧ mp = MappedPath.Git repo path rev := by
  unfold parse_gitiles_url at h
  cases h1 : tagP "https://".toList input with
  | none => rw [h1] at h; simp at h
  | some i1 =>
  rw [h1] at h
  simp only [Option.bind_eq_bind, Option.some_bind] at h
  cases h2 : takeUntil1 ".git/+/".toList i1 with
  | none => rw [h2] at h; simp at h
  | some p2 =>
  obtain ⟨repo, i2⟩ := p2
  rw [h2] at h
  simp only [Option.bind_eq_bind, Option.some_bind] at h
  cases h3 : tagP ".git/+/".toList i2 with
  | none => rw [h3] at h; simp at h
  | some i3 =>
  rw [h3] at h
  simp only [Option.bind_eq_bind, Option.some_bind] at h
  cases h4 : takeUntil1 "/".toList i3 with
  | none => rw [h4] at h; simp at h
  | some p4 =>
  obtain ⟨rev, i4⟩ := p4
  rw [h4] at h
  simp only [Option.bind_eq_bind, Option.some_bind] at h
  cases h5 : tagP "/".toList i4 with
  | none => rw [h5] at h; simp at h
  | some i5 =>
  rw [h5] at h
  simp only [Option.bind_eq_bind, Option.some_bind] at h
  cases h6 : takeUntil1 "?format=TEXT".toList i5 with
  | none => rw [h6] at h; simp at h
  | some p6 =>
  obtain ⟨path, i6⟩ := p6
  rw [h6] at h
  simp only [Option.bind_eq_bind, Option.some_bind] at h
  cases h7 : tagP "?format=TEXT".toList i6 with
  | none => rw [h7] at h; simp at h
  | some i7 =>
  rw [h7] at h
  simp only [Option.bind_eq_bind, Option.some_bind] at h
  have h7' : i7 = [] ∧ mp = MappedPath.Git repo path rev := by
    by_cases hi : i7 = []
    · rw [if_pos hi] at h
      simp at h
      exact ⟨hi, h.symm⟩
    · rw [if_neg hi] at h
      exact absurd h (by simp)
  obtain ⟨rfl, rfl⟩ := h7'
  have e1 : input = "https://".toList ++ i1 := tagP_eq_some.mp h1
  obtain ⟨e2, -, hrepo, hrinf⟩ := takeUntil1_eq_some h2
  have e3 : i2 = ".git/+/".toList ++ i3 := tagP_eq_some.mp h3
  obtain ⟨e4, -, hrev, hvinf⟩ := takeUntil1_eq_some h4
  have e5 : i4 = "/".toList ++ i5 := tagP_eq_some.mp h5
  obtain ⟨e6, -, hpath, hpinf⟩ := takeUntil1_eq_some h6
  have e7 : i6 = "?format=TEXT".toList ++ [] := tagP_eq_some.mp h7
  refine ⟨repo, rev, path, ⟨?_, hrepo, hrev, hpath,
    hrinf (by decide), hvinf (by decide), hpinf (by decide)⟩, rfl⟩
  subst e1 e2 e3 e4 e5 e6 e7
  simp [List.append_assoc]

/-! ### Unwind-chain function boundary extractor (`function_start_and_end_addresses`) -/

/-- A `.pdata` record: three little-endian `u32` fields. -/
structure RuntimeFunction where
  begin_address : Nat
  end_address : Nat
  unwind_info_address : Nat
deriving DecidableEq, Repr

/-- Little-endian `u32` from four bytes. -/
def u32le (b0 b1 b2 b3 : Nat) : Nat :=
  b0 % 256 + 256 * (b1 % 256) + 65536 * (b2 % 256) + 16777216 * (b3 % 256)

/-- Model of `pdata.chunks_exact(3 * size_of::<u32>())` followed by
`RuntimeFunction::ref_from(entry).unwrap()`: decode each complete 12-byte
record; `chunks_exact` silently ignores a trailing partial chunk. -/
def parseRuntimeFunctions : List Nat → List RuntimeFunction
  | b0 :: b1 :: b2 :: b3 :: b4 :: b5 :: b6 :: b7 :: b8 :: b9 :: b10 :: b11 :: rest =>
    { begin_address := u32le b0 b1 b2 b3
      end_address := u32le b4 b5 b6 b7
      unwind_info_address := u32le b8 b9 b10 b11 } :: parseRuntimeFunctions rest
  | _ => []

/-- Model of the chain-resolution `loop`: `chainAt a` abstracts
`sections.pe_data_at(file.data(), a).and_then(UnwindInfo::parse)` followed by
the `ChainedUnwindInfo` trailer probe — `some chained` when the unwind info at
address `a` chains to `chained`, `none` otherwise. The Rust `loop` has no
fuel: we index by fuel, and `none` at every fuel models non-termination. -/
def resolveCanonical (chainAt : Nat → Option RuntimeFunction) :
    Nat → RuntimeFunction → Option RuntimeFunction
  | 0, _ => none
  | fuel + 1, rf =>
    match chainAt rf.unwind_info_address with
    | some chained => resolveCanonical chainAt fuel chained
    | none => some rf

/-- The `Entry` local struct of `function_start_and_end_addresses`. -/
structure UnwindEntry where
  start_address : Nat
  end_address : Nat
  canonical_start_address : Nat
deriving DecidableEq, Repr

/-- The first phase of `function_start_and_end_addresses`: resolve each raw
record's canonical frame and keep the record's own `[start, end)` plus the
canonical start as merge key. -/
def resolveUnwindEntries (chainAt : Nat → Option RuntimeFunction) (fuel : Nat)
    (rfs : List RuntimeFunction) : Option (List UnwindEntry) :=
  rfs.mapM fun rf =>
    (resolveCanonical chainAt fuel rf).map fun cf =>
      { start_address := rf.begin_address
        end_address := rf.end_address
        canonical_start_address := cf.begin_address }

/-- Model of Rust's `slice::chunk_by`: split into maximal runs in which every
pair of consecutive elements satisfies `p`. -/
def chunkBy (p : α → α → Bool) : List α → List (List α)
  | [] => []
  | [x] => [[x]]
  | x :: y :: xs =>
    let rest := chunkBy p (y :: xs)
    if p x y then (x :: rest.headD []) :: rest.tail else [x] :: rest

/-- Model of `function_start_and_end_addresses`: decode the `.pdata` records,
resolve each record's chain, group consecutive entries by equal canonical
start address with `chunk_by`, and emit `(first.start_address,
last.end_address)` per group, unzipped into the two parallel vectors. The
`headD`/`getLastD` defaults are unreachable because `chunk_by` groups are
non-empty (Rust uses `.first().unwrap()` / `.last().unwrap()`). -/
def function_start_and_end_addresses (chainAt : Nat → Option RuntimeFunction)
    (fuel : Nat) (pdata : List Nat) : Option (List Nat × List Nat) :=
  (resolveUnwindEntries chainAt fuel (parseRuntimeFunctions pdata)).map fun entries =>
    ((chunkBy (fun lhs rhs => lhs.canonical_start_address == rhs.canonical_start_address)
        entries).map fun g =>
      ((g.headD ⟨0, 0, 0⟩).start_address, (g.getLastD ⟨0, 0, 0⟩).end_address)).unzip

theorem parseRuntimeFunctions_short {l : List Nat} (h : l.length < 12) :
    parseRuntimeFunctions l = [] := by
  induction l using parseRuntimeFunctions.induct with
  | case1 b0 b1 b2 b3 b4 b5 b6 b7 b8 b9 b10 b11 rest ih => simp at h; omega
  | case2 l hno =>
    rw [parseRuntimeFunctions.eq_def]
    split
    · next => exact ((hno _ _ _ _ _ _ _ _ _ _ _ _ _ rfl)).elim
    · rfl

theorem length_lt_twelve_of_no_cons12 {α : Type} {l : List α}
    (hno : ∀ (b0 b1 b2 b3 b4 b5 b6 b7 b8 b9 b10 b11 : α) (rest : List α),
      l = b0 :: b1 :: b2 :: b3 :: b4 :: b5 :: b6 :: b7 :: b8 :: b9 :: b10 :: b11 :: rest → False) :
    l.length < 12 := by
  rcases l with _ | ⟨b0, l⟩; · simp
  rcases l with _ | ⟨b1, l⟩; · simp
  rcases l with _ | ⟨b2, l⟩; · simp
  rcases l with _ | ⟨b3, l⟩; · simp
  rcases l with _ | ⟨b4, l⟩; · simp
  rcases l with _ | ⟨b5, l⟩; · simp
  rcases l with _ | ⟨b6, l⟩; · simp
  rcases l with _ | ⟨b7, l⟩; · simp
  rcases l with _ | ⟨b8, l⟩; · simp
  rcases l with _ | ⟨b9, l⟩; · simp
  rcases l with _ | ⟨b10, l⟩; · simp
  rcases l with _ | ⟨b11, l⟩; · simp
  exact absurd rfl (hno b0 b1 b2 b3 b4 b5 b6 b7 b8 b9 b10 b11 l)

/-- `chunks_exact(12)` ignores a partial trailing chunk: appending fewer than
12 bytes to a record-aligned table does not change the decoded records. -/
theorem parseRuntimeFunctions_append {l extra : List Nat} (hl : 12 ∣ l.length)
    (he : extra.length < 12) :
    parseRuntimeFunctions (l ++ extra) = parseRuntimeFunctions l := by
  induction l using parseRuntimeFunctions.induct with
  | case1 b0 b1 b2 b3 b4 b5 b6 b7 b8 b9 b10 b11 rest ih =>
    simp only [List.cons_append, parseRuntimeFunctions, List.append_eq]
    rw [ih (by simp at hl ⊢; omega)]
  | case2 l hno =>
    have hlen : l.length < 12 := length_lt_twelve_of_no_cons12 hno
    have hnil : l = [] := by
      rcases hl with ⟨c, hc⟩
      cases l with
      | nil => rfl
      | cons a t => simp at hc hlen ⊢; omega
    subst hnil
    simp [parseRuntimeFunctions_short he, parseRuntimeFunctions]

/-- Structure of `chunkBy` under an equality-of-key predicate: the chunks of
`x :: xs` form a first chunk headed by `x`, concatenate back to the input, are
non-empty, are key-constant, and adjacent chunks carry distinct keys (so each
chunk is a maximal run). -/
theorem chunkBy_key_spec {α : Type} (k : α → Nat) (d : α) :
    ∀ (xs : List α) (x : α),
      ∃ g gs, chunkBy (fun a b => k a == k b) (x :: xs) = (x :: g) :: gs
        ∧ ((x :: g) :: gs).flatten = x :: xs
        ∧ (∀ c ∈ (x :: g) :: gs, c ≠ [])
        ∧ (∀ c ∈ (x :: g) :: gs, ∀ u ∈ c, ∀ v ∈ c, k u = k v)
        ∧ List.Chain' (fun c c' => k (c.getLastD d) ≠ k (c'.headD d)) ((x :: g) :: gs) := by
  intro xs
  induction xs with
  | nil =>
    intro x
    refine ⟨[], [], rfl, by simp, by simp, ?_, by simp⟩
    intro c hc u hu v hv
    simp at hc
    subst hc
    simp at hu hv
    simp [hu, hv]
  | cons y ys ih =>
    intro x
    obtain ⟨g, gs, hEq, hJoin, hNe, hKey, hChain⟩ := ih y
    have hKeyFirst : ∀ u ∈ y :: g, k u = k y := by
      intro u hu
      exact hKey (y :: g) (by simp) u hu y (by simp)
    by_cases hp : k x = k y
    · -- merge `x` into the first chunk
      refine ⟨y :: g, gs, ?_, ?_, ?_, ?_, ?_⟩
      · show chunkBy _ (x :: y :: ys) = _
        rw [chunkBy, hEq]
        simp [hp]
      · simpa using hJoin
      · intro c hc
        simp at hc
        rcases hc with rfl | hc
        · simp
        · exact hNe c (by simp [hc])
      · intro c hc u hu v hv
        simp at hc
        rcases hc with rfl | hc
        · have hu' : u = x ∨ u ∈ y :: g := by simpa using hu
          have hv' : v = x ∨ v ∈ y :: g := by simpa using hv
          have hxu : k u = k y := by
            rcases hu' with rfl | hu'
            · exact hp
            · exact hKeyFirst u hu'
          have hxv : k v = k y := by
            rcases hv' with rfl | hv'
            · exact hp
            · exact hKeyFirst v hv'
          rw [hxu, hxv]
        · exact hKey c (by simp [hc]) u hu v hv
      · cases gs with
        | nil => simp
        | cons c gs' =>
          have hR : k ((y :: g).getLastD d) ≠ k (c.headD d) :=
            (List.chain'_cons.mp hChain).1
          have hC : List.Chain' (fun c c' => k (c.getLastD d) ≠ k (c'.headD d)) (c :: gs') :=
            (List.chain'_cons.mp hChain).2
          refine List.chain'_cons.mpr ⟨?_, hC⟩
          simpa [List.getLastD_cons] using hR
    · -- start a new chunk at `x`
      refine ⟨[], (y :: g) :: gs, ?_, ?_, ?_, ?_, ?_⟩
      · show chunkBy _ (x :: y :: ys) = _
        rw [chunkBy, hEq]
        simp [hp]
      · simpa using hJoin
      · intro c hc
        simp at hc
        rcases hc with rfl | hc
        · simp
        · exact hNe c (by simpa using hc)
      · intro c hc u hu v hv
        simp at hc
        rcases hc with rfl | hc
        · simp at hu hv
          simp [hu, hv]
        · exact hKey c (by simpa using hc) u hu v hv
      · refine List.chain'_cons.mpr ⟨?_, hChain⟩
        simpa using hp


/-- C3: for every unwind table whose chain resolution completes, the extractor
groups exactly the maximal runs of consecutive records with equal resolved
canonical start address: the chunks concatenate back to the entry list, are
non-empty and canonical-key-constant, adjacent chunks have distinct canonical
keys, and each chunk emits one boundary `(first record's own start, last
record's own end)` — the canonical start is only the merge key. -/
theorem function_start_and_end_addresses_groups_maximal_runs
    (chainAt : Nat → Option RuntimeFunction) (fuel : Nat) (pdata : List Nat)
    (starts ends : List Nat)
    (h : function_start_and_end_addresses chainAt fuel pdata = some (starts, ends)) :
    ∃ entries runs,
      resolveUnwindEntries chainAt fuel (parseRuntimeFunctions pdata) = some entries
      ∧ runs = chunkBy
          (fun lhs rhs => lhs.canonical_start_address == rhs.canonical_start_address) entries
      ∧ runs.flatten = entries
      ∧ (∀ r ∈ runs, r ≠ [])
      ∧ (∀ r ∈ runs, ∀ u ∈ r, ∀ v ∈ r,
          u.canonical_start_address = v.canonical_start_address)
      ∧ List.Chain' (fun r t =>
          (r.getLastD ⟨0, 0, 0⟩).canonical_start_address
            ≠ (t.headD ⟨0, 0, 0⟩).canonical_start_address) runs
      ∧ starts = runs.map (fun r => (r.headD ⟨0, 0, 0⟩).start_address)
      ∧ ends = runs.map (fun r => (r.getLastD ⟨0, 0, 0⟩).end_address) := by
  unfold function_start_and_end_addresses at h
  cases hres : resolveUnwindEntries chainAt fuel (parseRuntimeFunctions pdata) with
  | none => rw [hres] at h; simp at h
  | some entries =>
    rw [hres] at h
    simp only [Option.map_some'] at h
    rw [List.unzip_eq_map, List.map_map, List.map_map] at h
    have hpair := Option.some.inj h
    rw [Prod.mk.injEq] at hpair
    obtain ⟨hs, he2⟩ := hpair
    refine ⟨entries, _, rfl, rfl, ?_, ?_, ?_, ?_, hs.symm, he2.symm⟩
    all_goals
      cases entries with
      | nil => simp [chunkBy]
      | cons e es =>
        obtain ⟨g, gs, hEq, hFlat, hNe, hKey, hChain⟩ :=
          chunkBy_key_spec UnwindEntry.canonical_start_address ⟨0, 0, 0⟩ es e
        rw [show (fun lhs rhs : UnwindEntry =>
            lhs.canonical_start_address == rhs.canonical_start_address)
          = (fun a b : UnwindEntry =>
            UnwindEntry.canonical_start_address a == UnwindEntry.canonical_start_address b)
          from rfl, hEq]
        first
          | exact hFlat
          | exact hNe
          | exact hKey
          | exact hChain

/-- An image in which the unwind info at address 17 chains to a runtime
function whose unwind info address is again 17: a chain cycle. -/
def cyclicChainAt : Nat → Option RuntimeFunction :=
  fun a => if a = 17 then some ⟨1, 2, 17⟩ else none

/-- C4: the chain-resolution loop of `function_start_and_end_addresses` has no
cycle guard. On a cyclic chain it never terminates: `resolveCanonical` returns
`none` (= the Rust `loop` never breaks) for every fuel, and the whole
extractor diverges on the 12-byte table holding that record. -/
theorem resolveCanonical_cycle_diverges :
    (∀ fuel, resolveCanonical cyclicChainAt fuel ⟨1, 2, 17⟩ = none)
    ∧ parseRuntimeFunctions [1, 0, 0, 0, 2, 0, 0, 0, 17, 0, 0, 0]
        = [⟨1, 2, 17⟩]
    ∧ ∀ fuel, function_start_and_end_addresses cyclicChainAt fuel
        [1, 0, 0, 0, 2, 0, 0, 0, 17, 0, 0, 0] = none := by
  have h1 : ∀ fuel, resolveCanonical cyclicChainAt fuel ⟨1, 2, 17⟩ = none := by
    intro fuel
    induction fuel with
    | zero => rfl
    | succ n ih =>
      rw [resolveCanonical]
      simp only [cyclicChainAt, if_pos rfl]
      exact ih
  have hp : parseRuntimeFunctions [1, 0, 0, 0, 2, 0, 0, 0, 17, 0, 0, 0]
      = [⟨1, 2, 17⟩] := by decide
  refine ⟨h1, hp, fun fuel => ?_⟩
  unfold function_start_and_end_addresses
  rw [hp]
  unfold resolveUnwindEntries
  rw [List.mapM_cons, h1 fuel]
  rfl

/-- C5 counterexample: a 13-byte `.pdata` table (one complete record plus one
stray byte) is not rejected; the extractor silently drops the stray byte and
returns the boundaries of the complete record. -/
theorem function_start_and_end_addresses_accepts_partial_tail :
    ([5, 0, 0, 0, 6, 0, 0, 0, 7, 0, 0, 0, 99] : List Nat).length % 12 ≠ 0
    ∧ function_start_and_end_addresses (fun _ => none) 1
        [5, 0, 0, 0, 6, 0, 0, 0, 7, 0, 0, 0, 99] = some ([5], [6]) := by
  constructor
  · decide
  · decide

/-- C5 amended: on a table whose length is not a multiple of the 12-byte
record size, the extractor silently ignores the trailing partial record and
returns the result computed from the complete records alone. -/
theorem function_start_and_end_addresses_drops_partial_tail
    (chainAt : Nat → Option RuntimeFunction) (fuel : Nat) (l extra : List Nat)
    (hl : 12 ∣ l.length) (he : extra.length < 12) :
    function_start_and_end_addresses chainAt fuel (l ++ extra)
      = function_start_and_end_addresses chainAt fuel l := by
  unfold function_start_and_end_addresses
  rw [parseRuntimeFunctions_append hl he]

theorem function_start_and_end_addresses_drops_partial_tail_witness :
    12 ∣ ([5, 0, 0, 0, 6, 0, 0, 0, 7, 0, 0, 0] : List Nat).length
    ∧ ([99] : List Nat).length < 12
    ∧ function_start_and_end_addresses (fun _ => none) 1
        ([5, 0, 0, 0, 6, 0, 0, 0, 7, 0, 0, 0] ++ [99])
      = function_start_and_end_addresses (fun _ => none) 1
        [5, 0, 0, 0, 6, 0, 0, 0, 7, 0, 0, 0] :=
  ⟨by decide, by decide,
    function_start_and_end_addresses_drops_partial_tail (fun _ => none) 1
      [5, 0, 0, 0, 6, 0, 0, 0, 7, 0, 0, 0] [99] (by decide) (by decide)⟩

theorem function_start_and_end_addresses_groups_maximal_runs_witness :
    function_start_and_end_addresses (fun _ => none) 1
        [1, 0, 0, 0, 2, 0, 0, 0, 9, 0, 0, 0, 1, 0, 0, 0, 3, 0, 0, 0, 9, 0, 0, 0]
      = some ([1], [3])
    ∧ ∃ entries runs,
      resolveUnwindEntries (fun _ => none) 1 (parseRuntimeFunctions
          [1, 0, 0, 0, 2, 0, 0, 0, 9, 0, 0, 0, 1, 0, 0, 0, 3, 0, 0, 0, 9, 0, 0, 0])
        = some entries
      ∧ runs = chunkBy
          (fun lhs rhs => lhs.canonical_start_address == rhs.canonical_start_address) entries
      ∧ runs.flatten = entries
      ∧ (∀ r ∈ runs, r ≠ [])
      ∧ (∀ r ∈ runs, ∀ u ∈ r, ∀ v ∈ r,
          u.canonical_start_address = v.canonical_start_address)
      ∧ List.Chain' (fun r t =>
          (r.getLastD ⟨0, 0, 0⟩).canonical_start_address
            ≠ (t.headD ⟨0, 0, 0⟩).canonical_start_address) runs
      ∧ [1] = runs.map (fun r => (r.headD ⟨0, 0, 0⟩).start_address)
      ∧ [3] = runs.map (fun r => (r.getLastD ⟨0, 0, 0⟩).end_address) :=
  ⟨by decide,
    function_start_and_end_addresses_groups_maximal_runs (fun _ => none) 1
      [1, 0, 0, 0, 2, 0, 0, 0, 9, 0, 0, 0, 1, 0, 0, 0, 3, 0, 0, 0, 9, 0, 0, 0]
      [1] [3] (by decide)⟩

/-- C2: `parse_gitiles_url` succeeds exactly on strings of the exact gitiles
grammar (`https://` + repo + `.git/+/` + rev + `/` + path + `?format=TEXT`,
components non-empty, each separator taken at its first occurrence), yielding
`Git\x7brepo, path, rev\x7d`; appending any trailing characters to a valid URL is a
parse failure, never a truncated-but-successful parse; the pdfium example URL
parses to the expected triple and the example with a trailing suffix fails. -/
theorem parse_gitiles_url_grammar :
    (∀ input repo rev path : List Char, gitilesForm input repo rev path →
        parse_gitiles_url input = some (MappedPath.Git repo path rev))
    ∧ (∀ (input : List Char) (mp : MappedPath), parse_gitiles_url input = some mp →
        ∃ repo rev path, gitilesForm input repo rev path ∧ mp = MappedPath.Git repo path rev)
    ∧ (∀ input repo rev path extra : List Char, gitilesForm input repo rev path →
        extra ≠ [] → parse_gitiles_url (input ++ extra) = none)
    ∧ parse_gitiles_url
        "https://pdfium.googlesource.com/pdfium.git/+/dab1161c861cc239e48a17e1a5d729aa12785a53/core/fdrm/fx_crypt.cpp?format=TEXT".toList
      = some (MappedPath.Git "pdfium.googlesource.com/pdfium".toList
          "core/fdrm/fx_crypt.cpp".toList
          "dab1161c861cc239e48a17e1a5d729aa12785a53".toList)
    ∧ parse_gitiles_url
        "https://pdfium.googlesource.com/pdfium.git/+/dab1161c861cc239e48a17e1a5d729aa12785a53/core/fdrm/fx_crypt.cpp?format=TEXTotherstuff".toList
      = none := by
  refine ⟨?_, ?_, ?_, by decide, by decide⟩
  · intro input repo rev path h
    simpa using parse_gitiles_url_form_append h []
  · intro input mp h
    exact parse_gitiles_url_eq_some h
  · intro input repo rev path extra h hne
    rw [parse_gitiles_url_form_append h extra, if_neg hne]

theorem parse_gitiles_url_grammar_witness :
    parse_gitiles_url "https://r.git/+/v/p?format=TEXT".toList
      = some (MappedPath.Git "r".toList "p".toList "v".toList) :=
  parse_gitiles_url_grammar.1 "https://r.git/+/v/p?format=TEXT".toList
    "r".toList "v".toList "p".toList
    (by unfold gitilesForm
        exact ⟨by decide, by decide, by decide, by decide, by decide, by decide, by decide⟩)

/-! ### PDB backend `lookup_sync` (`PdbSymbolMapInner`) -/

/-- `LookupAddress` tagged union. -/
inductive LookupAddress where
  | Relative (rva : Nat)
  | Svma (svma : Nat)
  | FileOffset (offset : Nat)
deriving DecidableEq, Repr

/-- One frame of a `pdb_addr2line::FunctionFrames` chain (innermost last). -/
structure FrameData where
  function : Option String
  file : Option String
  line : Option Nat
deriving DecidableEq, Repr

/-- `pdb_addr2line::FunctionFrames`. -/
structure FunctionFrames where
  start_rva : Nat
  end_rva : Option Nat
  frames : List FrameData
deriving DecidableEq, Repr

/-- `SourceFilePath`: the raw compile-time path plus the optional permalink. -/
structure SourceFilePath where
  raw_path : String
  mapped_path : Option MappedPath
deriving DecidableEq, Repr

/-- `FrameDebugInfo`. -/
structure FrameDebugInfo where
  function : Option String
  file_path : Option SourceFilePath
  line_number : Option Nat
deriving DecidableEq, Repr

/-- The `FramesLookupResult` variant produced by this backend. -/
inductive FramesLookupResult where
  | Available (frames : List FrameDebugInfo)
deriving DecidableEq, Repr

/-- `SymbolInfo`. -/
structure SymbolInfo where
  address : Nat
  size : Option Nat
  name : String
deriving DecidableEq, Repr

/-- `SyncAddressInfo`. -/
structure SyncAddressInfo where
  symbol : SymbolInfo
  frames : Option FramesLookupResult
deriving DecidableEq, Repr

/-- Outcome of a call that may panic: Rust `frames.last().unwrap()` panics on
an empty vector, which is modelled explicitly. -/
inductive LookupOutcome where
  | panicked
  | ok (result : Option SyncAddressInfo)
deriving DecidableEq, Repr

/-- Model of `has_debug_info`. -/
def has_debug_info (func : FunctionFrames) : Bool :=
  if func.frames.length > 1 then true
  else if func.frames.isEmpty then false
  else
    (func.frames.headD ⟨none, none, none⟩).file.isSome
      || (func.frames.headD ⟨none, none, none⟩).line.isSome

/-- Model of `PdbSymbolMapInner::lookup_sync`. `find_frames` abstracts the
pdb_addr2line query context (`Err` collapses to a unit error, turned into
"no result" by `.ok()??`); `demangle_any` abstracts the demangler;
`map_path` abstracts the lock-protected path mapper call. -/
def lookup_sync (find_frames : Nat → Except Unit (Option FunctionFrames))
    (demangle_any : String → String) (map_path : String → Option MappedPath)
    (address : LookupAddress) : LookupOutcome :=
  match address with
  | .Svma _ => .ok none
  | .FileOffset _ => .ok none
  | .Relative rva =>
    match find_frames rva with
    | .error _ => .ok none
    | .ok none => .ok none
    | .ok (some function_frames) =>
      match function_frames.frames.getLast? with
      | none => .panicked
      | some lastFrame =>
        let symbol_name := match lastFrame.function with
          | some name => demangle_any name
          | none => "unknown"
        let function_size :=
          function_frames.end_rva.map (fun e => e - function_frames.start_rva)
        let symbol : SymbolInfo :=
          ⟨function_frames.start_rva, function_size, symbol_name⟩
        let frames := if has_debug_info function_frames then
            some (FramesLookupResult.Available (function_frames.frames.map fun frame =>
              ⟨frame.function, frame.file.map fun p => ⟨p, map_path p⟩, frame.line⟩))
          else none
        .ok (some ⟨symbol, frames⟩)

theorem has_debug_info_iff (f : FunctionFrames) :
    has_debug_info f = true
      ↔ 1 < f.frames.length ∨ ∃ fr, f.frames = [fr] ∧ (fr.file.isSome ∨ fr.line.isSome) := by
  obtain ⟨s, e, frames⟩ := f
  unfold has_debug_info
  match frames with
  | [] => simp
  | [x] => simp
  | x :: y :: t => simp

/-- C8: `lookup_sync` on the PDB backend returns "no result", never an error
and never a panic, for the unsupported address kinds (image-virtual `Svma` and
`FileOffset`). -/
theorem lookup_sync_unsupported_address_kinds
    (find_frames : Nat → Except Unit (Option FunctionFrames))
    (demangle_any : String → String) (map_path : String → Option MappedPath)
    (a : Nat) :
    lookup_sync find_frames demangle_any map_path (.Svma a) = .ok none
    ∧ lookup_sync find_frames demangle_any map_path (.FileOffset a) = .ok none :=
  ⟨rfl, rfl⟩

/-- C7: when the query context resolves an address to a non-empty frame
chain, `lookup_sync` returns a result whose symbol name is the innermost
(last) frame's function name demangled, or the literal `"unknown"` when that
name is absent; and per-frame debug info is attached iff the chain has more
than one frame, or exactly one frame carrying a file or a line. -/
theorem lookup_sync_symbol_name_and_frames
    (find_frames : Nat → Except Unit (Option FunctionFrames))
    (demangle_any : String → String) (map_path : String → Option MappedPath)
    (rva : Nat) (f : FunctionFrames)
    (hf : find_frames rva = .ok (some f)) (hne : f.frames ≠ []) :
    ∃ lastFrame info,
      f.frames.getLast? = some lastFrame
      ∧ lookup_sync find_frames demangle_any map_path (.Relative rva) = .ok (some info)
      ∧ info.symbol.name = (match lastFrame.function with
          | some name => demangle_any name
          | none => "unknown")
      ∧ (info.frames.isSome = true
          ↔ 1 < f.frames.length
            ∨ ∃ fr, f.frames = [fr] ∧ (fr.file.isSome ∨ fr.line.isSome)) := by
  obtain ⟨lastFrame, hgl⟩ : ∃ lf, f.frames.getLast? = some lf := by
    cases hgl : f.frames.getLast? with
    | none => exact absurd (List.getLast?_eq_none_iff.mp hgl) hne
    | some lf => exact ⟨lf, rfl⟩
  refine ⟨lastFrame, ?_⟩
  simp only [lookup_sync, hf]
  rw [hgl]
  refine ⟨_, rfl, rfl, rfl, ?_⟩
  rw [← has_debug_info_iff]
  by_cases hdi : has_debug_info f
  · simp [hdi]
  · simp [hdi]

/-- C10: `lookup_sync` takes `frames.last().unwrap()` before the
`has_debug_info` test, so a frame chain returned as `Some` with an empty
frames list makes it panic instead of returning no result; with a non-empty
chain it never panics. -/
theorem lookup_sync_empty_chain_panics
    (find_frames : Nat → Except Unit (Option FunctionFrames))
    (demangle_any : String → String) (map_path : String → Option MappedPath) :
    (∀ rva f, find_frames rva = .ok (some f) → f.frames = [] →
      lookup_sync find_frames demangle_any map_path (.Relative rva)
        = .panicked)
    ∧ (∀ rva f, find_frames rva = .ok (some f) → f.frames ≠ [] →
      lookup_sync find_frames demangle_any map_path (.Relative rva)
        ≠ .panicked) := by
  constructor
  · intro rva f hf hemp
    simp [lookup_sync, hf, hemp]
  · intro rva f hf hne
    obtain ⟨lastFrame, hgl⟩ : ∃ lf, f.frames.getLast? = some lf := by
      cases hgl : f.frames.getLast? with
      | none => exact absurd (List.getLast?_eq_none_iff.mp hgl) hne
      | some lf => exact ⟨lf, rfl⟩
    simp [lookup_sync, hf, hgl]

theorem lookup_sync_symbol_name_and_frames_witness :
    ∃ lastFrame info,
      (FunctionFrames.mk 4 (some 10) [⟨some "x", none, some 3⟩]).frames.getLast?
          = some lastFrame
      ∧ lookup_sync (fun _ => Except.ok (some ⟨4, some 10, [⟨some "x", none, some 3⟩]⟩))
          id (fun _ => none) (.Relative 0) = .ok (some info)
      ∧ info.symbol.name = (match lastFrame.function with
          | some name => id name
          | none => "unknown")
      ∧ (info.frames.isSome = true
          ↔ 1 < (FunctionFrames.mk 4 (some 10) [⟨some "x", none, some 3⟩]).frames.length
            ∨ ∃ fr, (FunctionFrames.mk 4 (some 10) [⟨some "x", none, some 3⟩]).frames = [fr]
                ∧ (fr.file.isSome ∨ fr.line.isSome)) :=
  lookup_sync_symbol_name_and_frames
    (fun _ => Except.ok (some ⟨4, some 10, [⟨some "x", none, some 3⟩]⟩))
    id (fun _ => none) 0 ⟨4, some 10, [⟨some "x", none, some 3⟩]⟩ rfl (by decide)

theorem lookup_sync_empty_chain_panics_witness :
    lookup_sync (fun _ => Except.ok (some ⟨4, none, []⟩)) id (fun _ => none)
      (.Relative 0) = .panicked :=
  (lookup_sync_empty_chain_panics (fun _ => Except.ok (some ⟨4, none, []⟩))
    id (fun _ => none)).1 0 ⟨4, none, []⟩ rfl rfl

/-! ### Source path mapper (`SrcSrvPathMapper`) -/

/-- The retrieval method returned by the srcsrv stream for a path. Payloads
not inspected by the Rust `match` are dropped; `OtherMethod` stands for every
further variant of the srcsrv crate's enum (all land in the `_ => None`
arm). -/
inductive SourceRetrievalMethod where
  | Download (url : String)
  | ExecuteCommand
  | OtherMethod
deriving Repr

/-- Abstraction of `srcsrv::SrcSrvStream`: raw variable lookup and
per-path retrieval-method resolution (`source_and_raw_var_values_for_path`,
whose `Err` case is collapsed to a unit error). The raw variable map of a
resolved path is modelled as a lookup function. -/
structure SrcSrvStream where
  getRawVar : String → Option String
  sourceAndRawVarValuesForPath :
    String → Except Unit (Option (SourceRetrievalMethod × (String → Option String)))

/-- The python3 gitiles workaround command text recognized by
`matches_chrome_gitiles_workaround`. -/
def gitilesWorkaroundCmd : String :=
  "cmd /c \"mkdir \"%SRC_EXTRACT_TARGET_DIR%\" & python3 -c \"import urllib.request, base64;url = \\\"%var4%\\\";u = urllib.request.urlopen(url);open(r\\\"%SRC_EXTRACT_TARGET%\\\", \\\"wb\\\").write(%var5%(u.read()))\""

/-- The variant of the same command text that carries the redundant
`SRC_EXTRACT_CMD=` variable-name prefix. -/
def gitilesWorkaroundCmdPrefixed : String :=
  "SRC_EXTRACT_CMD=cmd /c \"mkdir \"%SRC_EXTRACT_TARGET_DIR%\" & python3 -c \"import urllib.request, base64;url = \\\"%var4%\\\";u = urllib.request.urlopen(url);open(r\\\"%SRC_EXTRACT_TARGET%\\\", \\\"wb\\\").write(%var5%(u.read()))\""

/-- Model of `SrcSrvPathMapper::matches_chrome_gitiles_workaround`. -/
def matches_chrome_gitiles_workaround (srcsrv_stream : SrcSrvStream) : Bool :=
  let cmd := srcsrv_stream.getRawVar "SRC_EXTRACT_CMD"
  srcsrv_stream.getRawVar "SRCSRVCMD" == some "%SRC_EXTRACT_CMD%"
    && (cmd == some gitilesWorkaroundCmd || cmd == some gitilesWorkaroundCmdPrefixed)

/-- Model of `SrcSrvPathMapper`. `from_url` abstracts `MappedPath::from_url`
(defined outside this file's source); the `HashMap` cache is an association
list (most recent insertion first). -/
structure SrcSrvPathMapper where
  srcsrv_stream : SrcSrvStream
  from_url : String → Option MappedPath
  cache : List (String × Option MappedPath)
  command_is_file_download_with_url_in_var4_and_uncompress_function_in_var5 : Bool

/-- Model of `SrcSrvPathMapper::new`. -/
def SrcSrvPathMapper.new (srcsrv_stream : SrcSrvStream)
    (from_url : String → Option MappedPath) : SrcSrvPathMapper :=
  { srcsrv_stream := srcsrv_stream
    from_url := from_url
    cache := []
    command_is_file_download_with_url_in_var4_and_uncompress_function_in_var5 :=
      matches_chrome_gitiles_workaround srcsrv_stream }

/-- Model of `SrcSrvPathMapper::gitiles_to_mapped_path`. -/
def SrcSrvPathMapper.gitiles_to_mapped_path (m : SrcSrvPathMapper)
    (map : String → Option String) : Option MappedPath :=
  if !m.command_is_file_download_with_url_in_var4_and_uncompress_function_in_var5 then
    none
  else if map "var5" != some "base64.b64decode" then
    none
  else
    match map "var4" with
    | none => none
    | some url => parse_gitiles_url url.toList

/-- Model of `SrcSrvPathMapper::map_path` (the `ExtraPathMapper` impl). The
returned `Nat` instruments the number of calls made to the underlying
`source_and_raw_var_values_for_path` stream lookup during this call. -/
def SrcSrvPathMapper.map_path (m : SrcSrvPathMapper) (path : String) :
    Option MappedPath × SrcSrvPathMapper × Nat :=
  match m.cache.lookup path with
  | some value => (value, m, 0)
  | none =>
    let value :=
      match m.srcsrv_stream.sourceAndRawVarValuesForPath path with
      | .ok (some (.Download url, _map)) => m.from_url url
      | .ok (some (.ExecuteCommand, map)) => m.gitiles_to_mapped_path map
      | _ => none
    (value, { m with cache := (path, value) :: m.cache }, 1)

/-- C9: `map_path` is memoized. After any call, the queried path is cached
with the returned value, a second call with the same path returns the same
value and leaves the mapper unchanged while performing zero underlying stream
lookups, and the first call performs at most one. -/
theorem map_path_cached (m : SrcSrvPathMapper) (path : String) :
    (m.map_path path).2.1.cache.lookup path = some (m.map_path path).1
    ∧ (m.map_path path).2.1.map_path path
        = ((m.map_path path).1, (m.map_path path).2.1, 0)
    ∧ (m.map_path path).2.2 ≤ 1 := by
  cases hc : m.cache.lookup path with
  | some value => simp [SrcSrvPathMapper.map_path, hc]
  | none => simp [SrcSrvPathMapper.map_path, hc, List.lookup]

/-- C6: for a path resolved to a command-template retrieval method, a freshly
constructed mapper returns a mapped path if and only if the stream's
`SRCSRVCMD` equals `%SRC_EXTRACT_CMD%`, the `SRC_EXTRACT_CMD` text equals one
of the two known python workaround strings (one with the redundant
`SRC_EXTRACT_CMD=` prefix), the resolved `var5` equals the literal
`base64.b64decode`, and `var4` parses under the gitiles URL grammar; if any
condition fails the mapper returns `none` (the command is never executed —
the model contains no execution path). -/
theorem map_path_execute_command_conditions
    (stream : SrcSrvStream) (from_url : String → Option MappedPath)
    (path : String) (varMap : String → Option String)
    (hm : stream.sourceAndRawVarValuesForPath path
        = .ok (some (.ExecuteCommand, varMap)))
    (mp : MappedPath) :
    ((SrcSrvPathMapper.new stream from_url).map_path path).1 = some mp
      ↔ (stream.getRawVar "SRCSRVCMD" = some "%SRC_EXTRACT_CMD%"
        ∧ (stream.getRawVar "SRC_EXTRACT_CMD" = some gitilesWorkaroundCmd
            ∨ stream.getRawVar "SRC_EXTRACT_CMD" = some gitilesWorkaroundCmdPrefixed)
        ∧ varMap "var5" = some "base64.b64decode"
        ∧ ∃ url, varMap "var4" = some url ∧ parse_gitiles_url url.toList = some mp) := by
  have hcache : (SrcSrvPathMapper.new stream from_url).cache.lookup path = none := rfl
  simp only [SrcSrvPathMapper.map_path, hcache, hm]
  simp only [SrcSrvPathMapper.gitiles_to_mapped_path, SrcSrvPathMapper.new,
    matches_chrome_gitiles_workaround]
  by_cases h1 : stream.getRawVar "SRCSRVCMD" = some "%SRC_EXTRACT_CMD%"
  case neg =>
    simp [hm, h1]
  case pos =>
  by_cases h2 : stream.getRawVar "SRC_EXTRACT_CMD" = some gitilesWorkaroundCmd
      ∨ stream.getRawVar "SRC_EXTRACT_CMD" = some gitilesWorkaroundCmdPrefixed
  case neg =>
    rw [not_or] at h2
    simp [hm, h1, h2.1, h2.2]
  case pos =>
  by_cases h3 : varMap "var5" = some "base64.b64decode"
  case neg =>
    rcases h2 with h2 | h2 <;> simp [hm, h1, h2, h3]
  case pos =>
  cases h4 : varMap "var4" with
  | none =>
    rcases h2 with h2 | h2 <;> simp [hm, h1, h2, h3, h4]
  | some url =>
    rcases h2 with h2 | h2 <;> simp [hm, h1, h2, h3, h4]

theorem map_path_execute_command_conditions_witness :
    ((SrcSrvPathMapper.new
        ⟨fun v => if v = "SRCSRVCMD" then some "%SRC_EXTRACT_CMD%"
            else if v = "SRC_EXTRACT_CMD" then some gitilesWorkaroundCmd else none,
          fun _ => Except.ok (some (.ExecuteCommand,
            fun v => if v = "var4" then some "https://r.git/+/v/p?format=TEXT"
              else if v = "var5" then some "base64.b64decode" else none))⟩
        (fun _ => none)).map_path "c:dummy.cpp").1
      = some (MappedPath.Git "r".toList "p".toList "v".toList) :=
  (map_path_execute_command_conditions
      ⟨fun v => if v = "SRCSRVCMD" then some "%SRC_EXTRACT_CMD%"
          else if v = "SRC_EXTRACT_CMD" then some gitilesWorkaroundCmd else none,
        fun _ => Except.ok (some (.ExecuteCommand,
          fun v => if v = "var4" then some "https://r.git/+/v/p?format=TEXT"
            else if v = "var5" then some "base64.b64decode" else none))⟩
      (fun _ => none) "c:dummy.cpp"
      (fun v => if v = "var4" then some "https://r.git/+/v/p?format=TEXT"
        else if v = "var5" then some "base64.b64decode" else none)
      rfl (MappedPath.Git "r".toList "p".toList "v".toList)).mpr
    ⟨rfl, Or.inl rfl, rfl,
      ⟨"https://r.git/+/v/p?format=TEXT", rfl, by decide⟩⟩

/-! ### Identity-checked loader (`load_symbol_map_for_pdb_corresponding_to_binary`) -/

/-- The error cases of the loader (payload strings of the Rust `Error`
variants other than the two debug identities are dropped). -/
inductive LoadError where
  | objectParseError
  | noDebugInfoInPeBinary
  | pdbPathNotUtf8
  | fileLocationRefusedPdbLocation
  | helperErrorDuringOpenFile
  | pdbError
  | unmatchedDebugId (binaryDebugId pdbDebugId : Nat)
deriving DecidableEq, Repr

/-- The parsed PE binary as far as the loader reads it: `pe.pdb_info()`
collapsed to `some` raw path bytes for `Ok(Some(info))` and `none` for the
`_` arm, plus `debug_id_for_object(&pe)` (whose presence the code guarantees
by the `pdb_info` check). `DebugId` values are opaque `Nat` tokens. -/
structure PeBinaryInfo where
  pdbInfoPath : Option (List Nat)
  debugId : Nat

/-- The symbol map produced by `get_symbol_map_for_pdb`, exposing only its
`debug_id()`. -/
structure PdbSymbolMapHandle where
  debugId : Nat
deriving DecidableEq, Repr

/-- The external collaborators of the loader: `object::File::parse`,
`std::str::from_utf8`, `FileLocation::location_for_pdb_from_binary`,
`helper.load_file` and `get_symbol_map_for_pdb`. Locations and file contents
are opaque `Nat` tokens. -/
structure LoadEnv where
  parsePe : Except Unit PeBinaryInfo
  utf8Decode : List Nat → Option String
  locationForPdbFromBinary : String → Option Nat
  loadFile : Nat → Except Unit Nat
  getSymbolMapForPdb : Nat → Except Unit PdbSymbolMapHandle

/-- Model of `load_symbol_map_for_pdb_corresponding_to_binary`: each `?`
propagation becomes an explicit match, and the final debug-identity
comparison either returns the map or fails with `UnmatchedDebugId(binary,
pdb)`. -/
def load_symbol_map_for_pdb_corresponding_to_binary (env : LoadEnv) :
    Except LoadError PdbSymbolMapHandle :=
  match env.parsePe with
  | .error _ => .error .objectParseError
  | .ok pe =>
    match pe.pdbInfoPath with
    | none => .error .noDebugInfoInPeBinary
    | some infoPath =>
      match env.utf8Decode infoPath with
      | none => .error .pdbPathNotUtf8
      | some pdb_path_str =>
        match env.locationForPdbFromBinary pdb_path_str with
        | none => .error .fileLocationRefusedPdbLocation
        | some pdb_location =>
          match env.loadFile pdb_location with
          | .error _ => .error .helperErrorDuringOpenFile
          | .ok pdb_file =>
            match env.getSymbolMapForPdb pdb_file with
            | .error _ => .error .pdbError
            | .ok symbol_map =>
              if symbol_map.debugId ≠ pe.debugId then
                .error (.unmatchedDebugId pe.debugId symbol_map.debugId)
              else
                .ok symbol_map

/-- C1: the loader returns a symbol map only when the loaded PDB's debug
identity equals the binary's; when every pipeline step succeeds, a matching
identity yields the map and a mismatch fails with `UnmatchedDebugId` carrying
the binary's and the PDB's identities in that order — never a silently
returned map. -/
theorem load_symbol_map_identity_check (env : LoadEnv) :
    (∀ sm, load_symbol_map_for_pdb_corresponding_to_binary env = .ok sm →
      ∃ pe pdb_file, env.parsePe = .ok pe
        ∧ env.getSymbolMapForPdb pdb_file = .ok sm
        ∧ sm.debugId = pe.debugId)
    ∧ (∀ pe infoPath pathStr loc file sm,
        env.parsePe = .ok pe →
        pe.pdbInfoPath = some infoPath →
        env.utf8Decode infoPath = some pathStr →
        env.locationForPdbFromBinary pathStr = some loc →
        env.loadFile loc = .ok file →
        env.getSymbolMapForPdb file = .ok sm →
        (sm.debugId = pe.debugId →
          load_symbol_map_for_pdb_corresponding_to_binary env = .ok sm)
        ∧ (sm.debugId ≠ pe.debugId →
          load_symbol_map_for_pdb_corresponding_to_binary env
            = .error (.unmatchedDebugId pe.debugId sm.debugId))) := by
  constructor
  · intro sm h
    unfold load_symbol_map_for_pdb_corresponding_to_binary at h
    cases hpe : env.parsePe with
    | error e => rw [hpe] at h; simp at h
    | ok pe =>
    rw [hpe] at h
    simp only [] at h
    cases hinfo : pe.pdbInfoPath with
    | none => rw [hinfo] at h; simp at h
    | some infoPath =>
    rw [hinfo] at h
    simp only [] at h
    cases hdec : env.utf8Decode infoPath with
    | none => rw [hdec] at h; simp at h
    | some pathStr =>
    rw [hdec] at h
    simp only [] at h
    cases hloc : env.locationForPdbFromBinary pathStr with
    | none => rw [hloc] at h; simp at h
    | some loc =>
    rw [hloc] at h
    simp only [] at h
    cases hfile : env.loadFile loc with
    | error e => rw [hfile] at h; simp at h
    | ok file =>
    rw [hfile] at h
    simp only [] at h
    cases hsm : env.getSymbolMapForPdb file with
    | error e => rw [hsm] at h; simp at h
    | ok sm2 =>
    rw [hsm] at h
    simp only [] at h
    by_cases hid : sm2.debugId = pe.debugId
    · rw [if_neg (by simpa using hid)] at h
      simp at h
      subst h
      exact ⟨pe, file, rfl, hsm, hid⟩
    · rw [if_pos hid] at h
      simp at h
  · intro pe infoPath pathStr loc file sm hpe hinfo hdec hloc hfile hsm
    constructor
    · intro hid
      unfold load_symbol_map_for_pdb_corresponding_to_binary
      rw [hpe]; simp only []; rw [hinfo]; simp only []; rw [hdec]; simp only []
      rw [hloc]; simp only []; rw [hfile]; simp only []; rw [hsm]; simp only []
      rw [if_neg (by simpa using hid)]
    · intro hid
      unfold load_symbol_map_for_pdb_corresponding_to_binary
      rw [hpe]; simp only []; rw [hinfo]; simp only []; rw [hdec]; simp only []
      rw [hloc]; simp only []; rw [hfile]; simp only []; rw [hsm]; simp only []
      rw [if_pos hid]

theorem load_symbol_map_identity_check_witness :
    load_symbol_map_for_pdb_corresponding_to_binary
      { parsePe := .ok ⟨some [65], 1⟩
        utf8Decode := fun _ => some "a.pdb"
        locationForPdbFromBinary := fun _ => some 0
        loadFile := fun _ => .ok 0
        getSymbolMapForPdb := fun _ => .ok ⟨2⟩ }
      = .error (.unmatchedDebugId 1 2) :=
  ((load_symbol_map_identity_check
      { parsePe := .ok ⟨some [65], 1⟩
        utf8Decode := fun _ => some "a.pdb"
        locationForPdbFromBinary := fun _ => some 0
        loadFile := fun _ => .ok 0
        getSymbolMapForPdb := fun _ => .ok ⟨2⟩ }).2
    ⟨some [65], 1⟩ [65] "a.pdb" 0 0 ⟨2⟩ rfl rfl rfl rfl rfl rfl).2 (by decide)

end Samply
